import Mathlib

/-!
Shallow embedding of the `convoy` distributed job queue.

The repository ships `src/lib/helpers.js` (key namespacing and coarse
wall-clock time) and the test suite `src/test/queue.js`.  The queue,
worker and convoy modules themselves are not present under `src/`, so
their operations are modelled from the specification (`spec.md`): each
such definition carries a doc comment starting `Modelled from the spec:`
naming what is missing.  Ids are strings (the store treats ids as
strings); sets are lists of ids, sorted sets are association lists
member → score, the per-day error logs are association lists
dayStart → list of messages, and key expiry is an association list
dayStart → absolute expiry time.  Wall-clock time is an explicit
natural-number parameter in unix seconds.
-/

namespace Convoy

/-- Embeds `helpers.key` from `src/lib/helpers.js`: `keyPrefix + name`
(string concatenation of the configured prefix and the key name). -/
def key (pref name : String) : String := pref ++ name

/-- Embeds `helpers.time` from `src/lib/helpers.js`:
`Math.floor(new Date()/1000)`, i.e. the floor of epoch milliseconds
divided by 1000. -/
def time (ms : Nat) : Nat := ms / 1000

/-- Status reported by `AddJob` (spec §4.4). -/
inductive Status where
  | added
  | committed
  | processing
  deriving DecidableEq, Repr

/-- Score lookup in a sorted set represented as an association list
(KV primitive `ZSET_SCORE`). -/
def zscore (z : List (String × α)) (x : String) : Option α :=
  (z.find? (fun p => p.1 = x)).map (fun p => p.2)

/-- Membership in a sorted set (derived from `ZSET_SCORE ≠ null`). -/
def zmem (z : List (String × α)) (x : String) : Bool :=
  z.any (fun p => p.1 = x)

/-- Removal from a sorted set (KV primitive `ZSET_REMOVE`). -/
def zremove (z : List (String × α)) (x : String) : List (String × α) :=
  z.filter (fun p => p.1 ≠ x)

/-- Upsert into a sorted set (KV primitive `ZSET_UPSERT`): any previous
entry for the member is replaced. -/
def zupsert (z : List (String × α)) (x : String) (v : α) : List (String × α) :=
  zremove z x ++ [(x, v)]

/-- Association-list lookup keyed by `Nat` (used for the per-day error
logs and their expiry times). -/
def alookup (l : List (Nat × α)) (k : Nat) : Option α :=
  (l.find? (fun p => p.1 = k)).map (fun p => p.2)

/-- Association-list update keyed by `Nat`. -/
def aset (l : List (Nat × α)) (k : Nat) (v : α) : List (Nat × α) :=
  l.filter (fun p => p.1 ≠ k) ++ [(k, v)]

/-- The six KV keys owned by one queue (spec §3): `committed` is a set
of ids, `queued` a FIFO list, `processing` a sorted set id → unix
seconds, `failed` a sorted set id → id, `errorLog` the per-UTC-day
message lists, and `logExpire` the absolute expiry time set on each
day's error log. -/
structure QueueState where
  committed : List String
  queued : List String
  processing : List (String × Nat)
  failed : List (String × String)
  errorLog : List (Nat × List String)
  logExpire : List (Nat × Nat)
  deriving DecidableEq, Repr

/-- The initially empty queue: all six keys absent. -/
def emptyQ : QueueState :=
  { committed := [], queued := [], processing := [], failed := []
    errorLog := [], logExpire := [] }

/-- Modelled from the spec: `Queue.AddJob` (`src/lib/queue.js` is absent
from the sources). Spec §4.4: a conditional `SET_ADD` on `committed`;
iff the set mutated (the id was new) the id is pushed to the tail of
`queued` and the status is `added`; otherwise the status is
`processing` when the id is in the `processing` sorted set and
`committed` when it is not. -/
def addJob (x : String) (s : QueueState) : Status × QueueState :=
  if x ∈ s.committed then
    if zmem s.processing x then (Status.processing, s) else (Status.committed, s)
  else
    (Status.added, { s with committed := x :: s.committed, queued := s.queued ++ [x] })

/-- Modelled from the spec: the dispatcher step of `StartProcessing`
(`src/lib/queue.js` is absent). Spec §3 lifecycle step 2: blocking-pop
the head of `queued`, then upsert `processing[id] = now()`; returns the
popped id together with the new state, or `none` when the list is
empty. -/
def dispatch (now : Nat) (s : QueueState) : Option (String × QueueState) :=
  match s.queued with
  | [] => none
  | x :: rest =>
    some (x, { s with queued := rest, processing := zupsert s.processing x now })

/-- Modelled from the spec: `Worker.Completed` (`src/lib/worker.js` is
absent). Spec §4.3: atomically remove the id from `committed` and from
`processing`. -/
def completedOp (x : String) (s : QueueState) : QueueState :=
  { s with committed := s.committed.filter (fun c => c ≠ x)
           processing := zremove s.processing x }

/-- UTC day start used to bucket error logs:
`dayStart = Now() - (Now() mod 86400)` (spec §4.3, and
`src/test/queue.js` lines 180-181). -/
def dayStartOf (now : Nat) : Nat := now - now % 86400

/-- Modelled from the spec: `Worker.Failed` (`src/lib/worker.js` is
absent). Spec §4.3: compute `dayStart`; atomically remove the id from
`committed` and from `processing`, upsert `failed[id] = id`, left-push
the error message onto `errorLog.<dayStart>`, and set that key's TTL to
`logTTL` (here recorded as the absolute expiry time `now + logTTL`). -/
def failedOp (x msg : String) (now logTTL : Nat) (s : QueueState) : QueueState :=
  let d := dayStartOf now
  { s with committed := s.committed.filter (fun c => c ≠ x)
           processing := zremove s.processing x
           failed := zupsert s.failed x x
           errorLog := aset s.errorLog d (msg :: (alookup s.errorLog d).getD [])
           logExpire := aset s.logExpire d (now + logTTL) }

/-- Modelled from the spec: `Queue.ClearJammedJobs`
(`src/lib/queue.js` is absent). Spec §4.4: read the ids from
`processing` with score ≤ `Now() - threshold` (the comparison lives in
the integers, matching a `ZSET_RANGE_BY_SCORE` from -inf); for each
such id atomically remove it from `processing` and from `committed`;
return the list of removed ids. -/
def clearJammedJobs (threshold now : Nat) (s : QueueState) :
    List String × QueueState :=
  let jammed :=
    (s.processing.filter (fun p => (p.2 : Int) ≤ (now : Int) - (threshold : Int))).map
      (fun p => p.1)
  (jammed,
   { s with processing := s.processing.filter (fun p => p.1 ∉ jammed)
            committed := s.committed.filter (fun c => c ∉ jammed) })

/-- Remaining TTL of the day-`d` error log at time `now`: the recorded
absolute expiry minus the clock, as `EXPIRE`/`TTL` would report it. -/
def ttlOf (s : QueueState) (now d : Nat) : Option Int :=
  (alookup s.logExpire d).map (fun e => (e : Int) - (now : Int))

/-- Modelled from the spec: one atomic transition of the coordination
protocol over the shared KV store, acting on a clock/queue pair.
Producers may call `AddJob` at any moment; a dispatcher pops and
reserves the queued head; a worker that holds a job (its id is in
`processing`, spec §3 lifecycle step 3) may complete or fail it; any
convoy may run `ClearJammedJobs`; and the clock ticks forward.
`logTTL` is the process-wide `keys.logTTL` configuration value. -/
inductive Step (logTTL : Nat) : Nat × QueueState → Nat × QueueState → Prop where
  | add (t : Nat) (s : QueueState) (x : String) :
      Step logTTL (t, s) (t, (addJob x s).2)
  | disp (t : Nat) (s s' : QueueState) (x : String) :
      dispatch t s = some (x, s') → Step logTTL (t, s) (t, s')
  | complete (t : Nat) (s : QueueState) (x : String) :
      zmem s.processing x = true → Step logTTL (t, s) (t, completedOp x s)
  | fail (t : Nat) (s : QueueState) (x msg : String) :
      zmem s.processing x = true → Step logTTL (t, s) (t, failedOp x msg t logTTL s)
  | clear (t : Nat) (s : QueueState) (threshold : Nat) :
      Step logTTL (t, s) (t, (clearJammedJobs threshold t s).2)
  | tick (t : Nat) (s : QueueState) :
      Step logTTL (t, s) (t + 1, s)

/-- A clock/queue pair reachable by the protocol from an initially
empty queue at some starting time. -/
def Reachable (logTTL : Nat) (c : Nat × QueueState) : Prop :=
  ∃ t0 : Nat, Relation.ReflTransGen (Step logTTL) (t0, emptyQ) c

/-- The state invariants maintained between atomic transitions
(spec §3, I1–I5). -/
structure Inv (logTTL : Nat) (t : Nat) (s : QueueState) : Prop where
  queued_committed : ∀ x ∈ s.queued, x ∈ s.committed
  proc_committed : ∀ p ∈ s.processing, p.1 ∈ s.committed
  queued_nodup : s.queued.Nodup
  proc_keys_nodup : (s.processing.map Prod.fst).Nodup
  queued_not_proc : ∀ x ∈ s.queued, zmem s.processing x = false
  scores_le : ∀ p ∈ s.processing, p.2 ≤ t
  expire_le : ∀ p ∈ s.logExpire, p.2 ≤ t + logTTL

theorem zmem_iff_mem_keys (z : List (String × α)) (x : String) :
    zmem z x = true ↔ x ∈ z.map Prod.fst := by
  simp [zmem, List.any_eq_true, List.mem_map]

theorem zmem_false_iff (z : List (String × α)) (x : String) :
    zmem z x = false ↔ ∀ p ∈ z, p.1 ≠ x := by
  simp [zmem, List.any_eq_false]

theorem inv_empty (logTTL t : Nat) : Inv logTTL t emptyQ := by
  constructor <;> simp [emptyQ]

theorem inv_addJob (logTTL t : Nat) (s : QueueState) (x : String)
    (h : Inv logTTL t s) : Inv logTTL t (addJob x s).2 := by
  by_cases hc : x ∈ s.committed
  · have : (addJob x s).2 = s := by
      simp only [addJob, if_pos hc]
      cases hzm : zmem s.processing x <;> simp [hzm]
    rw [this]; exact h
  · have hq : x ∉ s.queued := fun hx => hc (h.queued_committed x hx)
    simp only [addJob, if_neg hc]
    constructor
    · intro y hy
      rcases List.mem_append.mp hy with hy | hy
      · exact List.mem_cons_of_mem _ (h.queued_committed y hy)
      · simp at hy; simp [hy]
    · intro p hp
      exact List.mem_cons_of_mem _ (h.proc_committed p hp)
    · refine List.Nodup.append h.queued_nodup (List.nodup_singleton x) ?_
      intro y hy hy2
      simp at hy2
      exact hq (hy2 ▸ hy)
    · exact h.proc_keys_nodup
    · intro y hy
      rcases List.mem_append.mp hy with hy | hy
      · exact h.queued_not_proc y hy
      · simp at hy; subst hy
        rw [zmem_false_iff]
        intro p hp he
        exact hc (he ▸ h.proc_committed p hp)
    · exact h.scores_le
    · exact h.expire_le

theorem inv_dispatch (logTTL t : Nat) (s s' : QueueState) (x : String)
    (hd : dispatch t s = some (x, s')) (h : Inv logTTL t s) :
    Inv logTTL t s' := by
  match hqe : s.queued with
  | [] => simp [dispatch, hqe] at hd
  | x0 :: rest =>
    simp only [dispatch, hqe, Option.some.injEq, Prod.mk.injEq] at hd
    obtain ⟨hxy, hs'⟩ := hd
    subst hxy
    subst hs'
    have hxq : x0 ∈ s.queued := by rw [hqe]; exact List.mem_cons_self x0 rest
    have hxrest : x0 ∉ rest := by
      have := h.queued_nodup; rw [hqe] at this
      exact (List.nodup_cons.mp this).1
    constructor
    · intro y hy
      exact h.queued_committed y (by rw [hqe]; exact List.mem_cons_of_mem _ hy)
    · intro p hp
      rcases List.mem_append.mp hp with hp | hp
      · exact h.proc_committed p (List.mem_of_mem_filter hp)
      · simp at hp
        rw [hp]
        exact h.queued_committed x0 hxq
    · have := h.queued_nodup; rw [hqe] at this
      exact (List.nodup_cons.mp this).2
    · simp only [zupsert, List.map_append]
      rw [List.nodup_append]
      refine ⟨?_, by simp, ?_⟩
      · exact h.proc_keys_nodup.sublist
          (List.Sublist.map _ (List.filter_sublist _))
      · intro k hk
        simp only [zremove, List.mem_map] at hk
        rcases hk with ⟨p, hp, hpk⟩
        have hne := (List.mem_filter.mp hp).2
        simp only [decide_eq_true_eq] at hne
        simp only [List.map_cons, List.map_nil, List.mem_singleton]
        intro hkx
        exact hne (hpk.trans hkx)
    · intro y hy
      rw [zmem_false_iff]
      intro p hp he
      rcases List.mem_append.mp hp with hp | hp
      · have hold := h.queued_not_proc y
          (by rw [hqe]; exact List.mem_cons_of_mem _ hy)
        rw [zmem_false_iff] at hold
        exact hold p (List.mem_of_mem_filter hp) he
      · simp at hp
        apply hxrest
        have hxy2 : x0 = y := by rw [hp] at he; exact he
        rw [hxy2]; exact hy
    · intro p hp
      rcases List.mem_append.mp hp with hp | hp
      · exact h.scores_le p (List.mem_of_mem_filter hp)
      · simp at hp
        rw [hp]
    · exact h.expire_le

theorem inv_completedOp (logTTL t : Nat) (s : QueueState) (x : String)
    (hx : zmem s.processing x = true) (h : Inv logTTL t s) :
    Inv logTTL t (completedOp x s) := by
  constructor
  · intro y hy
    refine List.mem_filter.mpr ⟨h.queued_committed y hy, ?_⟩
    have := h.queued_not_proc y hy
    simp only [decide_eq_true_eq]
    intro he; rw [he] at this; rw [this] at hx; exact Bool.noConfusion hx
  · intro p hp
    have hm := List.mem_of_mem_filter hp
    have hne := (List.mem_filter.mp hp).2
    simp at hne
    exact List.mem_filter.mpr ⟨h.proc_committed p hm, by simpa using hne⟩
  · exact h.queued_nodup
  · exact h.proc_keys_nodup.sublist (List.Sublist.map _ (List.filter_sublist _))
  · intro y hy
    rw [zmem_false_iff]
    intro p hp he
    have hold := h.queued_not_proc y hy
    rw [zmem_false_iff] at hold
    exact hold p (List.mem_of_mem_filter hp) he
  · intro p hp
    exact h.scores_le p (List.mem_of_mem_filter hp)
  · exact h.expire_le

theorem inv_failedOp (logTTL t : Nat) (s : QueueState) (x msg : String)
    (hx : zmem s.processing x = true) (h : Inv logTTL t s) :
    Inv logTTL t (failedOp x msg t logTTL s) := by
  constructor
  · intro y hy
    refine List.mem_filter.mpr ⟨h.queued_committed y hy, ?_⟩
    have := h.queued_not_proc y hy
    simp only [decide_eq_true_eq]
    intro he; rw [he] at this; rw [this] at hx; exact Bool.noConfusion hx
  · intro p hp
    have hm := List.mem_of_mem_filter hp
    have hne := (List.mem_filter.mp hp).2
    simp at hne
    exact List.mem_filter.mpr ⟨h.proc_committed p hm, by simpa using hne⟩
  · exact h.queued_nodup
  · exact h.proc_keys_nodup.sublist (List.Sublist.map _ (List.filter_sublist _))
  · intro y hy
    rw [zmem_false_iff]
    intro p hp he
    have hold := h.queued_not_proc y hy
    rw [zmem_false_iff] at hold
    exact hold p (List.mem_of_mem_filter hp) he
  · intro p hp
    exact h.scores_le p (List.mem_of_mem_filter hp)
  · intro p hp
    simp only [failedOp, aset] at hp
    rcases List.mem_append.mp hp with hp | hp
    · exact h.expire_le p (List.mem_of_mem_filter hp)
    · simp at hp
      rw [hp]

theorem inv_clearJammedJobs (logTTL t threshold : Nat) (s : QueueState)
    (h : Inv logTTL t s) : Inv logTTL t (clearJammedJobs threshold t s).2 := by
  have hjam : ∀ y, y ∈ (clearJammedJobs threshold t s).1 →
      zmem s.processing y = true := by
    intro y hy
    simp only [clearJammedJobs, List.mem_map] at hy
    rcases hy with ⟨p, hp, hpy⟩
    rw [zmem_iff_mem_keys]
    exact List.mem_map.mpr ⟨p, List.mem_of_mem_filter hp, hpy⟩
  constructor
  · intro y hy
    refine List.mem_filter.mpr ⟨h.queued_committed y hy, ?_⟩
    simp only [decide_eq_true_eq]
    intro hmem
    have := hjam y hmem
    rw [h.queued_not_proc y hy] at this
    exact Bool.noConfusion this
  · intro p hp
    have hm := List.mem_of_mem_filter hp
    have hne := (List.mem_filter.mp hp).2
    exact List.mem_filter.mpr ⟨h.proc_committed p hm, hne⟩
  · exact h.queued_nodup
  · exact h.proc_keys_nodup.sublist (List.Sublist.map _ (List.filter_sublist _))
  · intro y hy
    rw [zmem_false_iff]
    intro p hp he
    have hold := h.queued_not_proc y hy
    rw [zmem_false_iff] at hold
    exact hold p (List.mem_of_mem_filter hp) he
  · intro p hp
    exact h.scores_le p (List.mem_of_mem_filter hp)
  · exact h.expire_le

theorem inv_step (logTTL : Nat) (c c' : Nat × QueueState)
    (hs : Step logTTL c c') (h : Inv logTTL c.1 c.2) :
    Inv logTTL c'.1 c'.2 := by
  cases hs with
  | add t s x => exact inv_addJob logTTL t s x h
  | disp t s s' x hd => exact inv_dispatch logTTL t s s' x hd h
  | complete t s x hx => exact inv_completedOp logTTL t s x hx h
  | fail t s x msg hx => exact inv_failedOp logTTL t s x msg hx h
  | clear t s threshold => exact inv_clearJammedJobs logTTL t threshold s h
  | tick t s =>
    exact { queued_committed := h.queued_committed
            proc_committed := h.proc_committed
            queued_nodup := h.queued_nodup
            proc_keys_nodup := h.proc_keys_nodup
            queued_not_proc := h.queued_not_proc
            scores_le := fun p hp => Nat.le_succ_of_le (h.scores_le p hp)
            expire_le := fun p hp =>
              le_trans (h.expire_le p hp) (by omega) }

theorem reachable_inv (logTTL : Nat) (c : Nat × QueueState)
    (h : Reachable logTTL c) : Inv logTTL c.1 c.2 := by
  rcases h with ⟨t0, hr⟩
  induction hr with
  | refl => exact inv_empty logTTL t0
  | tail _ hstep ih => exact inv_step logTTL _ _ hstep ih

theorem zscore_zremove_self (z : List (String × α)) (x : String) :
    zscore (zremove z x) x = none := by
  have : (zremove z x).find? (fun p => p.1 = x) = none := by
    rw [List.find?_eq_none]
    intro p hp
    have := (List.mem_filter.mp hp).2
    simpa using this
  simp [zscore, this]

theorem zscore_zupsert_self (z : List (String × α)) (x : String) (v : α) :
    zscore (zupsert z x v) x = some v := by
  have hnone : (zremove z x).find? (fun p => decide (p.1 = x)) = none := by
    rw [List.find?_eq_none]
    intro p hp
    have := (List.mem_filter.mp hp).2
    simpa using this
  simp [zscore, zupsert, List.find?_append, hnone]

theorem alookup_aset_self (l : List (Nat × α)) (k : Nat) (v : α) :
    alookup (aset l k v) k = some v := by
  have hnone : (l.filter (fun p => p.1 ≠ k)).find? (fun p => decide (p.1 = k)) = none := by
    rw [List.find?_eq_none]
    intro p hp
    have := (List.mem_filter.mp hp).2
    simpa using this
  simp [alookup, aset, List.find?_append, hnone]

/-- `N` sequential `AddJob` calls for the same id.  Because `AddJob` is
atomic with respect to `committed` membership (spec §4.4), an arbitrary
interleaving of `N` concurrent calls is a sequence of `N` atomic calls;
this returns the list of reported statuses and the final state. -/
def addJobs (x : String) : Nat → QueueState → List Status × QueueState
  | 0, s => ([], s)
  | n + 1, s =>
    let r := addJob x s
    let rest := addJobs x n r.2
    (r.1 :: rest.1, rest.2)

theorem addJob_mem_committed (x : String) (s : QueueState)
    (hc : x ∈ s.committed) (hp : zmem s.processing x = false) :
    addJob x s = (Status.committed, s) := by
  simp [addJob, hc, hp]

theorem addJobs_stable (x : String) (n : Nat) (s : QueueState)
    (hc : x ∈ s.committed) (hp : zmem s.processing x = false) :
    addJobs x n s = (List.replicate n Status.committed, s) := by
  induction n with
  | zero => simp [addJobs]
  | succ m ih =>
    simp [addJobs, addJob_mem_committed x s hc hp, ih, List.replicate_succ]

/-- Modelled from the spec: `workersRunning` accounting inside one
convoy (`src/lib/queue.js` is absent).  Spec §4.4 `StartProcessing`:
the dispatcher waits until `workersRunning < concurrentWorkers` before
dispatching a job and incrementing the counter, and each completion
callback decrements it; the counter is mutated only by these two
actions. -/
inductive WorkersStep (concurrentWorkers : Nat) : Nat → Nat → Prop where
  | dispatch (w : Nat) : w < concurrentWorkers →
      WorkersStep concurrentWorkers w (w + 1)
  | complete (w : Nat) : WorkersStep concurrentWorkers (w + 1) w

/-- A value of `workersRunning` reachable from the idle state `0`. -/
def WorkersReachable (concurrentWorkers w : Nat) : Prop :=
  Relation.ReflTransGen (WorkersStep concurrentWorkers) 0 w

/-- Events a worker can observe: its timeout timer firing, or the
handler's completion callback (with an optional error message). -/
inductive WEvent where
  | timer
  | callback (err : Option String)
  deriving DecidableEq, Repr

/-- A terminal event reported by a worker. -/
inductive Report where
  | done
  | fault (msg : String)
  deriving DecidableEq, Repr

/-- Modelled from the spec: the per-job mutable worker state
(`src/lib/worker.js` is absent); spec §4.3 gives a worker the fields
`{startedAt, timer, done}`.  Reports are recorded with the time at
which they happened. -/
structure WorkerRun where
  finished : Bool
  reports : List (Nat × Report)
  deriving DecidableEq, Repr

/-- Modelled from the spec: how a worker reacts to one timed event
(`src/lib/worker.js` is absent).  Spec §4.3: once a terminal event has
been reported the worker is done and every later event is ignored;
the timer firing invokes `Failed("timeout")`; a callback with an error
invokes `Failed(msg)`; a callback without an error invokes
`Completed`. -/
def workerStep (st : WorkerRun) (e : Nat × WEvent) : WorkerRun :=
  if st.finished then st
  else
    match e.2 with
    | WEvent.timer =>
      { finished := true, reports := st.reports ++ [(e.1, Report.fault "timeout")] }
    | WEvent.callback none =>
      { finished := true, reports := st.reports ++ [(e.1, Report.done)] }
    | WEvent.callback (some m) =>
      { finished := true, reports := st.reports ++ [(e.1, Report.fault m)] }

/-- Run a worker over a sequence of timed events from its initial
state. -/
def workerRun (evs : List (Nat × WEvent)) : WorkerRun :=
  evs.foldl workerStep { finished := false, reports := [] }

/-- How many of the reported terminal events were failures: the
worker-local view of `CountFailed` (each fault report triggers one
`Failed` transition, which upserts the id into the `failed` sorted
set). -/
def countFaultReports (st : WorkerRun) : Nat :=
  (st.reports.filter (fun r =>
    match r.2 with
    | Report.fault _ => true
    | Report.done => false)).length

theorem workerRun_finished_fix (st : WorkerRun) (evs : List (Nat × WEvent))
    (h : st.finished = true) : evs.foldl workerStep st = st := by
  induction evs with
  | nil => rfl
  | cons e rest ih => simp [workerStep, h, ih]

/-- Claim C3: for every job id x on which `Completed` is invoked,
afterwards `SET_CONTAINS(committed, x)` is false and
`ZSET_SCORE(processing, x)` is null: `Completed` atomically removes
the id from both `committed` and `processing`. -/
theorem completed_removes_both (x : String) (s : QueueState) :
    x ∉ (completedOp x s).committed ∧
    zscore (completedOp x s).processing x = none := by
  constructor
  · intro hmem
    have := (List.mem_filter.mp hmem).2
    simp at this
  · exact zscore_zremove_self s.processing x

/-- Claim C4: `Failed(errorMessage)` atomically removes the id from
`committed` and from `processing`, upserts the id into the `failed`
sorted set with score equal to the id itself, and pushes the error
message onto the list `errorLog.<dayStart>` where
`dayStart = Now() - (Now() mod 86400)` (here with the expiry of that
log also recorded, TTL = `logTTL`). -/
theorem failed_bookkeeping (x msg : String) (now logTTL : Nat) (s : QueueState) :
    x ∉ (failedOp x msg now logTTL s).committed ∧
    zscore (failedOp x msg now logTTL s).processing x = none ∧
    zscore (failedOp x msg now logTTL s).failed x = some x ∧
    alookup (failedOp x msg now logTTL s).errorLog (now - now % 86400) =
      some (msg :: (alookup s.errorLog (now - now % 86400)).getD []) ∧
    alookup (failedOp x msg now logTTL s).logExpire (now - now % 86400) =
      some (now + logTTL) := by
  refine ⟨?_, ?_, ?_, ?_, ?_⟩
  · intro hmem
    have := (List.mem_filter.mp hmem).2
    simp at this
  · exact zscore_zremove_self s.processing x
  · exact zscore_zupsert_self s.failed x x
  · exact alookup_aset_self s.errorLog (now - now % 86400) _
  · exact alookup_aset_self s.logExpire (now - now % 86400) _

/-- Claim C1: for every job id x and every interleaving of N ≥ 1
concurrent `AddJob(x)` calls against an initially empty queue (each
call being atomic with respect to `committed` membership, an
interleaving is a sequence of N atomic calls), exactly one call
returns status `added`, each of the other N−1 calls returns
`committed` or `processing`, and afterwards the `queued` list has
length 1. -/
theorem addJob_admission_uniqueness (x : String) (n : Nat) (h : 0 < n) :
    (addJobs x n emptyQ).1.count Status.added = 1 ∧
    (addJobs x n emptyQ).1.length = n ∧
    (∀ r ∈ (addJobs x n emptyQ).1,
       r = Status.added ∨ r = Status.committed ∨ r = Status.processing) ∧
    (addJobs x n emptyQ).2.queued.length = 1 := by
  obtain ⟨m, rfl⟩ : ∃ m, n = m + 1 := ⟨n - 1, by omega⟩
  have hfirst : addJob x emptyQ =
      (Status.added,
       { committed := [x], queued := [x], processing := [], failed := []
         errorLog := [], logExpire := [] }) := by
    simp [addJob, emptyQ]
  have hrest : addJobs x m
      ({ committed := [x], queued := [x], processing := [], failed := []
         errorLog := [], logExpire := [] } : QueueState) =
      (List.replicate m Status.committed,
       { committed := [x], queued := [x], processing := [], failed := []
         errorLog := [], logExpire := [] }) :=
    addJobs_stable x m _ (by simp) (by simp [zmem])
  have hall : addJobs x (m + 1) emptyQ =
      (Status.added :: List.replicate m Status.committed,
       { committed := [x], queued := [x], processing := [], failed := []
         errorLog := [], logExpire := [] }) := by
    simp [addJobs, hfirst, hrest]
  rw [hall]
  refine ⟨?_, ?_, ?_, ?_⟩
  · simp [List.count_cons, List.count_replicate]
  · simp
  · intro r hr
    rcases List.mem_cons.mp hr with hr | hr
    · exact Or.inl hr
    · exact Or.inr (Or.inl (List.eq_of_mem_replicate hr))
  · simp

/-- Claim C2: for every reachable queue state and every job id already
present in `queued`, a second `AddJob` with the same id returns status
`committed`, leaves the `queued` list (and the whole state) unchanged:
the call is a no-op besides reporting. -/
theorem addJob_requeue_noop (logTTL t : Nat) (s : QueueState) (x : String)
    (hreach : Reachable logTTL (t, s)) (hx : x ∈ s.queued) :
    addJob x s = (Status.committed, s) ∧
    (addJob x s).2.queued.length = s.queued.length := by
  have hinv := reachable_inv logTTL (t, s) hreach
  have he := addJob_mem_committed x s (hinv.queued_committed x hx)
    (hinv.queued_not_proc x hx)
  exact ⟨he, by rw [he]⟩

/-- Claim C6: `workersRunning` never exceeds the configured
`concurrentWorkers`: every value of the counter reachable from the
idle convoy by dispatcher increments (guarded by the back-pressure
wait) and completion decrements is at most `concurrentWorkers`. -/
theorem workersRunning_bounded (concurrentWorkers w : Nat)
    (h : WorkersReachable concurrentWorkers w) : w ≤ concurrentWorkers := by
  induction h with
  | refl => exact Nat.zero_le _
  | tail _ hstep ih =>
    cases hstep with
    | dispatch _ hlt => omega
    | complete _ => omega

/-- Claim C7: a worker reports exactly one terminal event; when the
timeout timer fires at `startedAt + T` before the handler has called
back, the worker performs `Failed("timeout")` — its fault count
reaches 1 at time `startedAt + T`, within `T + ε` of the start for
any ε — and every late handler callback after the timeout is ignored
(the run's final state is exactly the one-report state). -/
theorem worker_single_terminal_timeout (startedAt T : Nat)
    (evs late : List (Nat × WEvent)) (h : evs ≠ []) :
    (workerRun evs).reports.length = 1 ∧
    workerRun ((startedAt + T, WEvent.timer) :: late) =
      { finished := true
        reports := [(startedAt + T, Report.fault "timeout")] } ∧
    countFaultReports (workerRun ((startedAt + T, WEvent.timer) :: late)) = 1 ∧
    (∀ eps : Nat, startedAt + T ≤ startedAt + T + eps) := by
  have hto : workerRun ((startedAt + T, WEvent.timer) :: late) =
      { finished := true
        reports := [(startedAt + T, Report.fault "timeout")] } := by
    show List.foldl workerStep _ ((startedAt + T, WEvent.timer) :: late) = _
    rw [List.foldl_cons]
    exact workerRun_finished_fix _ late rfl
  refine ⟨?_, hto, by rw [hto]; rfl, fun eps => Nat.le_add_right _ _⟩
  match evs, h with
  | (te, ev) :: rest, _ =>
    show ((List.foldl workerStep _ _).reports).length = 1
    rw [List.foldl_cons]
    cases ev with
    | timer =>
      rw [workerRun_finished_fix _ rest rfl]
      rfl
    | callback err =>
      cases err with
      | none =>
        rw [workerRun_finished_fix _ rest rfl]
        rfl
      | some m =>
        rw [workerRun_finished_fix _ rest rfl]
        rfl

/-- Claim C5: `ClearJammedJobs(threshold)` removes exactly the ids
whose `processing` score is at most `Now() - threshold` from both
`processing` and `committed` and returns the list of removed ids; in
particular, after `ClearJammedJobs(0)` on a reachable queue with one
jammed id x, x is absent from both `committed` and `processing` and a
subsequent `AddJob(x)` returns `added`. -/
theorem clearJammedJobs_clears (logTTL threshold t sc : Nat) (s : QueueState)
    (x : String) (hreach : Reachable logTTL (t, s))
    (hproc : s.processing = [(x, sc)]) :
    (∀ (s2 : QueueState) (y : String),
       y ∈ (clearJammedJobs threshold t s2).1 ↔
         ∃ p ∈ s2.processing, p.1 = y ∧
           (p.2 : Int) ≤ (t : Int) - (threshold : Int)) ∧
    (∀ (s2 : QueueState) (p : String × Nat),
       p ∈ (clearJammedJobs threshold t s2).2.processing ↔
         p ∈ s2.processing ∧ p.1 ∉ (clearJammedJobs threshold t s2).1) ∧
    (∀ (s2 : QueueState) (y : String),
       y ∈ (clearJammedJobs threshold t s2).2.committed ↔
         y ∈ s2.committed ∧ y ∉ (clearJammedJobs threshold t s2).1) ∧
    (clearJammedJobs 0 t s).1 = [x] ∧
    x ∉ (clearJammedJobs 0 t s).2.committed ∧
    zscore (clearJammedJobs 0 t s).2.processing x = none ∧
    (addJob x (clearJammedJobs 0 t s).2).1 = Status.added := by
  have hsc : sc ≤ t := by
    have hinv := reachable_inv logTTL (t, s) hreach
    exact hinv.scores_le (x, sc) (by rw [hproc]; exact List.mem_singleton_self _)
  have hcond : (sc : Int) ≤ (t : Int) - ((0 : Nat) : Int) := by push_cast; omega
  have hstate : (clearJammedJobs 0 t s).2 =
      { s with processing := []
               committed := s.committed.filter (fun c => c ∉ [x]) } := by
    simp [clearJammedJobs, hproc, hcond, hsc, show ¬ t < sc by omega]
  have hxnot : x ∉ s.committed.filter (fun c => c ∉ [x]) := by
    intro hmem
    simpa using (List.mem_filter.mp hmem).2
  refine ⟨?_, ?_, ?_, ?_, ?_, ?_, ?_⟩
  · intro s2 y
    simp only [clearJammedJobs, List.mem_map, List.mem_filter, decide_eq_true_eq]
    constructor
    · rintro ⟨p, ⟨hp, hle⟩, hpy⟩
      exact ⟨p, hp, hpy, hle⟩
    · rintro ⟨p, hp, hpy, hle⟩
      exact ⟨p, ⟨hp, hle⟩, hpy⟩
  · intro s2 p
    simp only [clearJammedJobs, List.mem_filter, decide_eq_true_eq]
  · intro s2 y
    simp only [clearJammedJobs, List.mem_filter, decide_eq_true_eq]
  · simp [clearJammedJobs, hproc, hcond, hsc]
  · rw [hstate]
    exact hxnot
  · rw [hstate]
    simp [zscore]
  · rw [hstate]
    simp only [addJob]
    rw [if_neg hxnot]

/-- Claim C8: on every reachable queue state, every entry of the
`processing` sorted set carries a score at most the current time in
unix seconds; and the id handed to a worker by a dispatch has, at the
moment the handler is first called, a `processing` score in the window
`[Now() − 5, Now()]`. -/
theorem processing_scores_bounded (logTTL t : Nat) (s : QueueState)
    (hreach : Reachable logTTL (t, s)) :
    (∀ p ∈ s.processing, p.2 ≤ t) ∧
    (∀ (x : String) (s2 : QueueState), dispatch t s = some (x, s2) →
      ∃ sc, zscore s2.processing x = some sc ∧ t - 5 ≤ sc ∧ sc ≤ t) := by
  refine ⟨(reachable_inv logTTL (t, s) hreach).scores_le, ?_⟩
  intro x s2 hd
  match hqe : s.queued with
  | [] => simp [dispatch, hqe] at hd
  | x0 :: rest =>
    simp only [dispatch, hqe, Option.some.injEq, Prod.mk.injEq] at hd
    obtain ⟨hxy, hs2⟩ := hd
    subst hxy
    subst hs2
    exact ⟨t, zscore_zupsert_self s.processing x0 t, Nat.sub_le _ _, Nat.le_refl t⟩

/-- Claim C9: after a `Failed(msg)` transition at time t the key
`errorLog.<dayStart>` has remaining TTL equal to the configured
`logTTL`, hence at most `logTTL` and strictly greater than 0 (for a
positive configured `logTTL`); and on every reachable state every
recorded error-log expiry leaves a remaining TTL of at most
`logTTL`. -/
theorem errorLog_ttl_bounded (logTTL t : Nat) (s : QueueState) (x msg : String)
    (hT : 0 < logTTL) (hreach : Reachable logTTL (t, s)) :
    (ttlOf (failedOp x msg t logTTL s) t (dayStartOf t) = some (logTTL : Int) ∧
     (0 : Int) < (logTTL : Int)) ∧
    (∀ p ∈ s.logExpire, (p.2 : Int) - (t : Int) ≤ (logTTL : Int)) := by
  refine ⟨⟨?_, by exact_mod_cast hT⟩, ?_⟩
  · unfold ttlOf
    rw [show (failedOp x msg t logTTL s).logExpire =
          aset s.logExpire (dayStartOf t) (t + logTTL) from rfl]
    rw [alookup_aset_self]
    have hcast : ((t + logTTL : Nat) : Int) - (t : Int) = (logTTL : Int) := by
      push_cast
      ring
    simp [hcast]
  · intro p hp
    have h2 := (reachable_inv logTTL (t, s) hreach).expire_le p hp
    omega

/-- Claim C10: for a fixed configured key prefix, `helpers.key` is
injective in the key name: `key(a) = key(b)` implies `a = b`, so two
distinct key names never collide on the same KV key. -/
theorem key_injective (pref a b : String) (h : key pref a = key pref b) :
    a = b := by
  have hd : pref.data ++ a.data = pref.data ++ b.data := by
    have h2 := congrArg String.data h
    simpa [key] using h2
  exact String.ext (List.append_cancel_left hd)

/-- Witness for C1 at id "1" and N = 3. -/
theorem addJob_admission_uniqueness_witness :
    (addJobs "1" 3 emptyQ).1.count Status.added = 1 ∧
    (addJobs "1" 3 emptyQ).2.queued.length = 1 := by
  have h := addJob_admission_uniqueness "1" 3 (by decide)
  exact ⟨h.1, h.2.2.2⟩

/-- Witness for C2: a second `AddJob` of id "1" while it is queued. -/
theorem addJob_requeue_noop_witness :
    addJob "1" (addJob "1" emptyQ).2 =
      (Status.committed, (addJob "1" emptyQ).2) :=
  (addJob_requeue_noop 60 0 (addJob "1" emptyQ).2 "1"
    ⟨0, Relation.ReflTransGen.single (Step.add 0 emptyQ "1")⟩ (by decide)).1

/-- Witness for C5: one jammed id "98" reserved at time 5, cleared with
threshold 0, then re-added. -/
theorem clearJammedJobs_clears_witness :
    (addJob "98" (clearJammedJobs 0 5
      (QueueState.mk ["98"] [] [("98", 5)] [] [] [])).2).1 = Status.added := by
  have hreach : Reachable 60 (5, QueueState.mk ["98"] [] [("98", 5)] [] [] []) :=
    ⟨5, Relation.ReflTransGen.tail
      (Relation.ReflTransGen.single (Step.add 5 emptyQ "98"))
      (Step.disp 5 (addJob "98" emptyQ).2
        (QueueState.mk ["98"] [] [("98", 5)] [] [] []) "98" (by decide))⟩
  exact (clearJammedJobs_clears 60 0 5 5
    (QueueState.mk ["98"] [] [("98", 5)] [] [] []) "98" hreach rfl).2.2.2.2.2.2

/-- Witness for C6 with `concurrentWorkers = 2` and one dispatched
job. -/
theorem workersRunning_bounded_witness : WorkersReachable 2 1 ∧ 1 ≤ 2 :=
  ⟨Relation.ReflTransGen.single (WorkersStep.dispatch 0 (by decide)),
   workersRunning_bounded 2 1
     (Relation.ReflTransGen.single (WorkersStep.dispatch 0 (by decide)))⟩

/-- Witness for C7: a timer firing at time 3 = 1 + 2 followed by a
late handler callback at time 9. -/
theorem worker_single_terminal_timeout_witness :
    countFaultReports
      (workerRun [(3, WEvent.timer), (9, WEvent.callback none)]) = 1 :=
  (worker_single_terminal_timeout 1 2 [(0, WEvent.callback none)]
    [(9, WEvent.callback none)] (by decide)).2.2.1

/-- Witness for C8: the queue that reserved id "98" at time 5. -/
theorem processing_scores_bounded_witness :
    ∃ sc, zscore (QueueState.mk ["98"] [] [("98", 5)] [] [] []).processing "98" =
        some sc ∧ 5 - 5 ≤ sc ∧ sc ≤ 5 :=
  (processing_scores_bounded 60 5 (addJob "98" emptyQ).2
    ⟨5, Relation.ReflTransGen.single (Step.add 5 emptyQ "98")⟩).2 "98"
    (QueueState.mk ["98"] [] [("98", 5)] [] [] []) (by decide)

/-- Witness for C9: a failure of id "1" at time 0 with `logTTL = 60`. -/
theorem errorLog_ttl_bounded_witness :
    ttlOf (failedOp "1" "boom" 0 60 emptyQ) 0 (dayStartOf 0) =
      some (60 : Int) :=
  ((errorLog_ttl_bounded 60 0 emptyQ "1" "boom" (by decide)
    ⟨0, Relation.ReflTransGen.refl⟩).1).1

/-- Witness for C10 at prefix "convoy:" and name "queued". -/
theorem key_injective_witness : ("queued" : String) = "queued" :=
  key_injective "convoy:" "queued" "queued" rfl

end Convoy
